import Mathlib

/-!
Shallow embedding of the windowing / batching utilities of the
epileptic-seizure-prediction repository, together with proofs of the
behavioural properties that the repository documentation states about them.

Embedded code:
* `generate_indices` and `generate_sequences` from `classic_dl/lstm/utils.py`;
* the seizure-interval scan from `data_description/explore_data.py`;
* `running_mean` from `classic_ml/svm/svm.py`.

Numpy arrays of values are modelled as `List ℚ` (exact arithmetic), index
arrays as `List Int` (Python integers), and raised exceptions as
`Except.error`.  The hidden state of NumPy's global random generator, which
`np.random.choice` and `np.random.permutation` consume, is made explicit as
oracle parameters.
-/

/-- The Python exceptions raised on the modelled code paths. -/
inductive PyError where
  | valueError
  | zeroDivisionError
  | indexError
  | typeError
deriving DecidableEq, Repr

instance decEqExcept {ε α : Type} [DecidableEq ε] [DecidableEq α] :
    DecidableEq (Except ε α) := fun a b =>
  match a, b with
  | .error e, .error f =>
    if h : e = f then .isTrue (congrArg Except.error h)
    else .isFalse fun c => h (Except.error.inj c)
  | .ok x, .ok y =>
    if h : x = y then .isTrue (congrArg Except.ok h)
    else .isFalse fun c => h (Except.ok.inj c)
  | .error _, .ok _ => .isFalse fun c => Except.noConfusion c
  | .ok _, .error _ => .isFalse fun c => Except.noConfusion c

/-- `np.arange(start, stop, step)` on integers, for a nonzero `step`:
the values `start, start + step, …` strictly before `stop` in the direction
of `step`.  Its length is `max 0 ⌈(stop - start) / step⌉`, here written with
the floor division `Int.fdiv` (Python's `//`). -/
def arange (start stop step : Int) : List Int :=
  (List.range (-((start - stop).fdiv step)).toNat).map fun (i : Nat) => start + (i : Int) * step

/-- 1-D numpy integer indexing on a list of values: a negative index counts
from the end of the array. -/
def pyGet (l : List ℚ) (i : Int) : ℚ :=
  if 0 ≤ i then l.getD i.toNat 0 else l.getD ((l.length : Int) + i).toNat 0

/-- Python `int()` on a rational: truncation toward zero. -/
def pyInt (q : ℚ) : Int :=
  if 0 ≤ q then ⌊q⌋ else ⌈q⌉

/-- Soundness condition for an oracle modelling
`np.random.choice(l, k, replace=False)`: whenever the request is satisfiable
on a duplicate-free pool, it returns `k` distinct elements of the pool. -/
def ValidChoice (rng : List Nat → Nat → List Nat) : Prop :=
  ∀ l k, l.Nodup → k ≤ l.length →
    (rng l k).length = k ∧ (rng l k).Nodup ∧ ∀ x ∈ rng l k, x ∈ l

/-- An oracle for `np.random.choice(l, k, replace=False)` that draws the
first `k` elements of the pool. -/
def pickFirst (l : List Nat) (k : Nat) : List Nat := l.take k

/-- An oracle for `np.random.choice(l, k, replace=False)` that draws the
last `k` elements of the pool. -/
def pickLast (l : List Nat) (k : Nat) : List Nat := l.drop (l.length - k)

/-- A permutation oracle for `np.random.permutation`; never consulted in the
`shuffle = False` runs studied here. -/
def noPerm (_ : Nat) : List Nat := []

/-- The subsampling block of `generate_indices` (utils.py, lines 100-126):
positions (meta-indices) of `target_indices_seq` that are kept.  All
positions whose target value is `>= subsampling_cutoff_threshold` are kept;
of the others, `min(int(n_positive * subsampling_factor), n_negative)` are
drawn without replacement by `np.random.choice` (the `rng` oracle); the
union is sorted back into temporal order.  Fancy indexing
`targets[0][target_indices_seq]` raises `IndexError` on an out-of-range
index, and `np.random.choice` raises `ValueError` on a negative size. -/
def subsampleSelect (rng : List Nat → Nat → List Nat) (targets0 : List ℚ)
    (subsampling_cutoff_threshold subsampling_factor : ℚ)
    (target_indices_seq : List Int) : Except PyError (List Nat) :=
  let len_data : Int := targets0.length
  if ¬ ∀ i ∈ target_indices_seq, -len_data ≤ i ∧ i < len_data then
    .error .indexError
  else
    let m := target_indices_seq.length
    let positive_meta_idxs := (List.range m).filter fun j =>
      subsampling_cutoff_threshold ≤ pyGet targets0 (target_indices_seq.getD j 0)
    let negative_meta_idxs := (List.range m).filter fun j =>
      pyGet targets0 (target_indices_seq.getD j 0) < subsampling_cutoff_threshold
    let wanted := pyInt ((positive_meta_idxs.length : ℚ) * subsampling_factor)
    if wanted < 0 then .error .valueError
    else
      let n_negative_class_keep := min wanted.toNat negative_meta_idxs.length
      let negative_keep := rng negative_meta_idxs n_negative_class_keep
      .ok (List.insertionSort (· ≤ ·) (positive_meta_idxs ++ negative_keep))

/-- Shallow embedding of `generate_indices`
(`classic_dl/lstm/utils.py`, lines 84-128).  `targets0` is `targets[0]`;
`rng` models the NumPy global-generator state consumed by
`np.random.choice`.  Python's `//` is `Int.fdiv`; `//` by zero raises
`ZeroDivisionError`, `np.arange` with step `0` raises `ZeroDivisionError`,
fancy indexing `targets[0][target_indices_seq]` raises `IndexError` when an
index is out of range, and `np.random.choice` with a negative size raises
`ValueError`. -/
def generate_indices (rng : List Nat → Nat → List Nat) (targets0 : List ℚ)
    (length target_steps_ahead sampling_rate stride start_index : Int)
    (subsample : Bool) (subsampling_cutoff_threshold subsampling_factor : ℚ) :
    Except PyError (List (List Int) × List Int) :=
  let len_data : Int := targets0.length
  let s := start_index + length
  if stride = 0 then .error .zeroDivisionError
  else
    let number_of_sequences := (len_data - s - target_steps_ahead).fdiv stride
    let end_index := s + number_of_sequences * stride + target_steps_ahead
    if s > end_index then .error .valueError
    else
      let starts := arange s (end_index - target_steps_ahead + 1) stride
      if sampling_rate = 0 ∧ starts ≠ [] then .error .zeroDivisionError
      else
        let inputs_indices_seq :=
          starts.map fun idx => arange (idx - length) idx sampling_rate
        let target_indices_seq :=
          arange (s + target_steps_ahead - 1) end_index stride
        if subsample then
          match subsampleSelect rng targets0 subsampling_cutoff_threshold
              subsampling_factor target_indices_seq with
          | .error e => .error e
          | .ok total =>
            .ok (total.map fun j => inputs_indices_seq.getD j [],
                 total.map fun j => target_indices_seq.getD j 0)
        else
          .ok (inputs_indices_seq, target_indices_seq)

/-- Shallow embedding of the generator `generate_sequences`
(`classic_dl/lstm/utils.py`, lines 4-81), as the full sequence of its yields:
the Keras batch count first, then every `(output_sequences, output_targets)`
batch over all epochs.  `inputs` and `targets` are already lists of arrays
(the `isinstance` wrapping).  `perm` models `np.random.permutation` at each
epoch.  `batch_size = -1` becomes `np.inf`, for which `n // inf = 0` and
`n % inf = n`, and slicing an array with the float bound `strt + inf` raises
`TypeError`; `batch_size = 0` makes `n // batch_size` raise
`ZeroDivisionError`. -/
def generate_sequences (rng : List Nat → Nat → List Nat) (perm : Nat → List Nat)
    (inputs targets : List (List ℚ))
    (length target_steps_ahead sampling_rate stride start_index : Int)
    (shuffle : Bool) (epochs : Nat) (batch_size : Int)
    (subsample : Bool) (subsampling_cutoff_threshold subsampling_factor : ℚ) :
    Except PyError (Int × List (List (List (List ℚ)) × List (List ℚ))) :=
  if stride < 1 then .error .valueError
  else
    match generate_indices rng (targets.getD 0 []) length target_steps_ahead
        sampling_rate stride start_index subsample
        subsampling_cutoff_threshold subsampling_factor with
    | .error e => .error e
    | .ok (inputs_indices_seq, target_indices_seq) =>
      let n : Int := target_indices_seq.length
      if batch_size = -1 then
        if 0 < n then .error .typeError else .ok (0, [])
      else if batch_size = 0 then .error .zeroDivisionError
      else
        let n_batches_all := n.fdiv batch_size
        let n_residual_samples := n.fmod batch_size
        let n_batches_full :=
          if 0 < n_residual_samples then n_batches_all + 1 else n_batches_all
        let mkBatch := fun (iis : List (List Int)) (tis : List Int) =>
          (inputs.map fun i_ => iis.map fun w => w.map (pyGet i_),
           targets.map fun t_ => tis.map (pyGet t_))
        let epochStep := fun (st : (List (List Int) × List Int) ×
            List (List (List (List ℚ)) × List (List ℚ))) (e : Nat) =>
          let iis := if shuffle then (perm e).map (st.1.1.getD · []) else st.1.1
          let tis := if shuffle then (perm e).map (st.1.2.getD · 0) else st.1.2
          let full := (List.range n_batches_full.toNat).map fun b =>
            mkBatch ((iis.drop (b * batch_size.toNat)).take batch_size.toNat)
                    ((tis.drop (b * batch_size.toNat)).take batch_size.toNat)
          let residual :=
            if 0 < n_residual_samples then
              [mkBatch (iis.drop (n - n_residual_samples).toNat)
                       (tis.drop (n - n_residual_samples).toNat)]
            else []
          ((iis, tis), st.2 ++ full ++ residual)
        let result := (List.range epochs).foldl epochStep
          ((inputs_indices_seq, target_indices_seq), [])
        .ok (n_batches_full, result.2)

/-- The transition scan of `data_description/explore_data.py` (lines 31-38)
over one clip's `szr_bool` array, walking `i = 1, …, T-1` and comparing
`szr_bool[i]` with `szr_bool[i-1]`.  The accumulator holds the completed
`(start_idx, end_idx, duration)` records in order of completion; `opn` is the
`start_idx` of a record opened by a `False→True` transition and not yet
closed.  `none` models the `KeyError` raised when a `True→False` transition
occurs with no record to write `end_idx` into. -/
def seizureScanAux : Nat → Bool → List Bool → Option Nat →
    List (Nat × Nat × Nat) → Option (List (Nat × Nat × Nat))
  | _, _, [], _, acc => some acc
  | i, prev, cur :: rest, opn, acc =>
    if cur && !prev then
      seizureScanAux (i + 1) cur rest (some (i - 1)) acc
    else if !cur && prev then
      match opn with
      | none => none
      | some st => seizureScanAux (i + 1) cur rest none (acc ++ [(st, i - 1, i - 1 - st)])
    else
      seizureScanAux (i + 1) cur rest opn acc

/-- The seizure scan of `explore_data.py` on one clip. -/
def seizureScan : List Bool → Option (List (Nat × Nat × Nat))
  | [] => some []
  | b :: rest => seizureScanAux 1 b rest none []

/-- `a..b` is a maximal contiguous run of `True` values in `szr`. -/
def IsSeizureRun (szr : List Bool) (a b : Nat) : Prop :=
  a ≤ b ∧ b < szr.length ∧
  (∀ i < szr.length, a ≤ i → i ≤ b → szr.getD i false = true) ∧
  (a = 0 ∨ szr.getD (a - 1) true = false) ∧
  (b + 1 = szr.length ∨ szr.getD (b + 1) true = false)

/-- `np.cumsum`: the list of prefix sums (same length as the input). -/
def cumsum : List ℚ → List ℚ
  | [] => []
  | x :: xs => x :: (cumsum xs).map (x + ·)

/-- Shallow embedding of `running_mean` (`classic_ml/svm/svm.py`,
lines 117-119) in exact arithmetic:
`cumsum = np.cumsum(np.insert(x, 0, 0))`, result
`(cumsum[N:] - cumsum[:-N]) / float(N)`. -/
def running_mean (x : List ℚ) (N : Nat) : List ℚ :=
  let c := cumsum ((0 : ℚ) :: x)
  List.zipWith (fun a b => (a - b) / (N : ℚ)) (c.drop N) (c.take (c.length - N))

/-- Modelled from the spec: the naive sliding mean, whose `i`-th element is
the arithmetic mean of `x[i], …, x[i+N-1]`.  Written from the claim's words,
to be compared with the `running_mean` implementation. -/
def slidingMean (x : List ℚ) (N : Nat) : List ℚ :=
  (List.range (x.length + 1 - N)).map fun i => ((x.drop i).take N).sum / (N : ℚ)

/-! ### Generic list lemmas used throughout -/

lemma getD_map_of_lt {α β : Type} (f : α → β) (l : List α) {n : Nat}
    (h : n < l.length) (d : α) (d' : β) :
    (l.map f).getD n d' = f (l.getD n d) := by
  rw [List.getD_eq_getElem _ _ (by simpa using h), List.getD_eq_getElem _ _ h,
    List.getElem_map]

lemma getD_drop' {α : Type} (l : List α) (n i : Nat) (d : α) :
    (l.drop n).getD i d = l.getD (n + i) d := by
  simp [List.getD_eq_getElem?_getD, List.getElem?_drop]

lemma getD_take_of_lt {α : Type} (l : List α) {n i : Nat} (h : i < n) (d : α) :
    (l.take n).getD i d = l.getD i d := by
  simp [List.getD_eq_getElem?_getD, List.getElem?_take_of_lt h]

lemma getD_zipWith {α : Type} (f : α → α → α) (d : α) :
    ∀ (a b : List α) (i : Nat), i < a.length → i < b.length →
      (List.zipWith f a b).getD i d = f (a.getD i d) (b.getD i d)
  | _ :: _, _ :: _, 0, _, _ => rfl
  | _ :: as, _ :: bs, i + 1, ha, hb =>
      getD_zipWith f d as bs i (by simpa using ha) (by simpa using hb)

lemma countP_eq_length_filter_range {α : Type} (l : List α) (P : α → Bool) (d : α) :
    l.countP P = ((List.range l.length).filter fun j => P (l.getD j d)).length := by
  induction l with
  | nil => simp
  | cons x xs ih =>
    have hmap : ((List.range xs.length).map Nat.succ).filter
        (fun j => P ((x :: xs).getD j d)) =
        ((List.range xs.length).filter fun j => P (xs.getD j d)).map Nat.succ := by
      rw [List.filter_map]
      simp [Function.comp_def, Nat.succ_eq_add_one]
    rw [List.countP_cons, ih, List.length_cons, List.range_succ_eq_map,
      List.filter_cons, hmap]
    by_cases hx : P x
    · simp [hx, Nat.add_comm]
    · simp [hx]

/-! ### `np.arange` lemmas -/

lemma arange_length (s e st : Int) :
    (arange s e st).length = (-((s - e).fdiv st)).toNat := by
  unfold arange
  rw [List.length_map, List.length_range]

lemma getD_arange {s e st : Int} {j : Nat} (h : j < (arange s e st).length) :
    (arange s e st).getD j 0 = s + j * st := by
  unfold arange at h ⊢
  rw [getD_map_of_lt _ _ (by simpa using h) 0]
  congr 1
  rw [List.getD_eq_getElem _ _ (by simpa using h), List.getElem_range]

lemma mem_arange {x s e st : Int} (h : x ∈ arange s e st) :
    ∃ j : Nat, j < (arange s e st).length ∧ x = s + j * st := by
  unfold arange at h
  rcases List.mem_map.1 h with ⟨j, hj, rfl⟩
  exact ⟨j, by simpa [arange] using List.mem_range.1 hj, rfl⟩

/-- For a positive step, membership bound: `j` is a valid index iff the
`j`-th value is still before `stop`. -/
lemma lt_arange_length_iff {s e st : Int} (hst : 0 < st) (j : Nat) :
    j < (arange s e st).length ↔ s + j * st < e := by
  rw [arange_length, Int.lt_toNat, Int.fdiv_eq_ediv _ (Int.le_of_lt hst),
    lt_neg, Int.ediv_lt_iff_lt_mul hst]
  constructor
  · intro h; nlinarith
  · intro h; nlinarith

lemma arange_empty_of_neg {s e st : Int} (hst : st < 0) (hse : s < e) :
    arange s e st = [] := by
  have hnum : s - e < 0 := by omega
  obtain ⟨m, hm⟩ := Int.eq_negSucc_of_lt_zero hnum
  obtain ⟨k, hk⟩ := Int.eq_negSucc_of_lt_zero hst
  have hfd : 0 ≤ (s - e).fdiv st := by
    rw [hm, hk]
    exact Int.ofNat_nonneg _
  have hz : (-((s - e).fdiv st)).toNat = 0 := by omega
  unfold arange
  rw [hz]
  rfl

lemma arange_sorted_lt {s e st : Int} (hst : 0 < st) :
    List.Pairwise (· < ·) (arange s e st) := by
  unfold arange
  rw [List.pairwise_map]
  exact (List.pairwise_lt_range _).imp (by intro a b h; nlinarith)

/-! ### C10: `running_mean` equals the naive sliding mean -/

lemma cumsum_length (l : List ℚ) : (cumsum l).length = l.length := by
  induction l with
  | nil => rfl
  | cons x xs ih => simp [cumsum, ih]

lemma cumsum_getD (l : List ℚ) : ∀ i : Nat, i < l.length →
    (cumsum l).getD i 0 = (l.take (i + 1)).sum := by
  induction l with
  | nil => simp
  | cons x xs ih =>
    intro i hi
    cases i with
    | zero => simp [cumsum]
    | succ n =>
      have hn : n < xs.length := by simpa using hi
      have hn' : n < (cumsum xs).length := by rwa [cumsum_length]
      simp only [cumsum, List.getD_cons_succ, List.take_succ_cons, List.sum_cons]
      rw [getD_map_of_lt _ _ hn' 0, ih n hn]

lemma cumsum_zero_cons_getD (x : List ℚ) {i : Nat} (hi : i ≤ x.length) :
    (cumsum ((0 : ℚ) :: x)).getD i 0 = (x.take i).sum := by
  have := cumsum_getD ((0 : ℚ) :: x) i (by simpa using Nat.lt_succ_of_le hi)
  cases i with
  | zero => simpa using this
  | succ n => simpa using this

/-- C10.  For `1 ≤ N ≤ n = x.length`, `running_mean x N` (the cumulative-sum
implementation from `svm.py`) equals the naive sliding mean: it has length
`n - N + 1` and its `i`-th element is the arithmetic mean of
`x[i], …, x[i+N-1]`, in exact arithmetic. -/
theorem running_mean_eq_slidingMean (x : List ℚ) (N : Nat)
    (h1 : 1 ≤ N) (h2 : N ≤ x.length) :
    running_mean x N = slidingMean x N ∧
    (running_mean x N).length = x.length - N + 1 ∧
    ∀ i < x.length - N + 1,
      (running_mean x N).getD i 0 = ((x.drop i).take N).sum / (N : ℚ) := by
  have hc : (cumsum ((0 : ℚ) :: x)).length = x.length + 1 := by
    rw [cumsum_length]; rfl
  have hlen : (running_mean x N).length = x.length - N + 1 := by
    unfold running_mean
    rw [List.length_zipWith, List.length_drop, List.length_take, hc]
    omega
  have helem : ∀ i < x.length - N + 1,
      (running_mean x N).getD i 0 = ((x.drop i).take N).sum / (N : ℚ) := by
    intro i hi
    unfold running_mean
    rw [getD_zipWith _ _ _ _ i (by rw [List.length_drop, hc]; omega)
        (by rw [List.length_take, hc]; omega)]
    rw [getD_drop', getD_take_of_lt _ (by rw [hc]; omega),
      cumsum_zero_cons_getD x (by omega), cumsum_zero_cons_getD x (by omega)]
    have hsplit : x.take (N + i) = x.take i ++ (x.drop i).take N := by
      rw [Nat.add_comm N i, List.take_add]
    rw [hsplit, List.sum_append]
    ring
  refine ⟨?_, hlen, helem⟩
  have hslen : (slidingMean x N).length = x.length - N + 1 := by
    unfold slidingMean
    rw [List.length_map, List.length_range]
    omega
  apply List.ext_getElem (by rw [hlen, hslen])
  intro i hi hi'
  have hix : i < x.length - N + 1 := by rwa [hlen] at hi
  have h1' := helem i hix
  rw [List.getD_eq_getElem _ 0 hi] at h1'
  rw [h1']
  unfold slidingMean
  rw [List.getElem_map, List.getElem_range]

/-- Closed witness for C10 at `x = [1, 2, 3]`, `N = 2`. -/
theorem running_mean_eq_slidingMean_witness :
    running_mean [(1 : ℚ), 2, 3] 2 = slidingMean [(1 : ℚ), 2, 3] 2 :=
  (running_mean_eq_slidingMean [(1 : ℚ), 2, 3] 2 (by decide) (by decide)).1

/-! ### Arithmetic helpers for window counting -/

lemma fdiv_eq_of_eq_mul_add {a b q r : Int} (hb : 0 < b)
    (h : a = b * q + r) (hr0 : 0 ≤ r) (hrb : r < b) : a.fdiv b = q := by
  rw [Int.fdiv_eq_ediv _ (Int.le_of_lt hb)]
  exact ((Int.ediv_emod_unique hb).2 ⟨by omega, hr0, hrb⟩).1

lemma arange_length_of_pos {s e st : Int} (hst : 0 < st) {n : Int} (hn : 0 ≤ n)
    (he : e = s + n * st + 1) : (arange s e st).length = n.toNat + 1 := by
  have hfd : (s - e).fdiv st = -(n + 1) :=
    fdiv_eq_of_eq_mul_add hst
      (show s - e = st * (-(n + 1)) + (st - 1) by rw [he]; ring)
      (by omega) (by omega)
  rw [arange_length, hfd]
  omega

/-! ### C1: number of generated windows -/

/-- C1.  With `start_index = 0`, `target_steps_ahead = 0`,
`subsample = False`, window length `W ≥ 1`, stride `S ≥ 1` and a targets
array of length `L ≥ W`, `generate_indices` returns
`⌊(L - W) / S⌋ + 1` input windows and the same number of target indices. -/
theorem generate_indices_window_count
    (rng : List Nat → Nat → List Nat) (targets0 : List ℚ) (W S : Nat)
    (thr factor : ℚ) (hW : 1 ≤ W) (hS : 1 ≤ S) (hL : W ≤ targets0.length) :
    ∃ iis tis,
      generate_indices rng targets0 (W : Int) 0 1 (S : Int) 0 false thr factor =
        .ok (iis, tis) ∧
      iis.length = (targets0.length - W) / S + 1 ∧
      tis.length = (targets0.length - W) / S + 1 := by
  have hS0 : (0 : Int) < (S : Int) := by exact_mod_cast hS
  set L : Nat := targets0.length with hLdef
  set n : Int := ((L : Int) - (0 + (W : Int)) - 0).fdiv (S : Int) with hn
  have hn0 : 0 ≤ n := Int.fdiv_nonneg (by push_cast; omega) (by omega)
  have hnval : n = (((L - W) / S : Nat) : Int) := by
    rw [hn, Int.fdiv_eq_ediv _ (by omega), Int.ofNat_ediv]
    congr 1
    push_cast [hL]
    omega
  simp only [generate_indices]
  rw [if_neg (by omega), if_neg (by nlinarith), if_neg (by simp),
    if_neg (by simp)]
  refine ⟨_, _, rfl, ?_, ?_⟩
  · rw [List.length_map]
    rw [arange_length_of_pos hS0 hn0 (by push_cast; ring), hnval, Int.toNat_ofNat]
  · rw [arange_length_of_pos hS0 hn0 (by push_cast; ring), hnval, Int.toNat_ofNat]

/-! ### C6: window contents and start offsets -/

/-- C6.  Without subsampling, the `j`-th input-index window produced by a
successful `generate_indices` call is exactly
`np.arange(start_index + j*stride, start_index + j*stride + length,
sampling_rate)`; in particular consecutive windows' start offsets differ by
exactly `stride`. -/
theorem generate_indices_window_offsets
    (rng : List Nat → Nat → List Nat) (targets0 : List ℚ)
    (length tsa sr stride start0 : Int) (thr factor : ℚ)
    (iis : List (List Int)) (tis : List Int) (j : Nat)
    (h : generate_indices rng targets0 length tsa sr stride start0 false
      thr factor = .ok (iis, tis))
    (hj : j < iis.length) :
    iis.getD j [] =
      arange (start0 + (j : Int) * stride)
        (start0 + (j : Int) * stride + length) sr := by
  simp only [generate_indices, Bool.false_eq_true, if_false] at h
  split_ifs at h with h1 h2 h3 <;> try exact Except.noConfusion h
  simp only [Except.ok.injEq, Prod.mk.injEq] at h
  obtain ⟨rfl, rfl⟩ := h
  rw [List.length_map] at hj
  rw [getD_map_of_lt _ _ hj 0, getD_arange hj]
  congr 1 <;> ring

/-- Closed witness for C1: a targets array of length 5, `W = 2`, `S = 2`
gives `(5-2)/2 + 1 = 2` windows. -/
theorem generate_indices_window_count_witness :
    ∃ iis tis,
      generate_indices pickFirst [(0 : ℚ), 0, 0, 0, 0] 2 0 1 2 0 false
        (1/2) 1 = Except.ok (iis, tis) ∧ iis.length = 2 ∧ tis.length = 2 :=
  generate_indices_window_count pickFirst [0, 0, 0, 0, 0] 2 2 (1/2) 1
    (by decide) (by decide) (by decide)

/-- Closed witness for C6: on a length-5 targets array with `length = 2`,
`stride = 2`, window 0 is `np.arange(0, 2, 1)`. -/
theorem generate_indices_window_offsets_witness :
    ([[0, 1], [2, 3]] : List (List Int)).getD 0 [] = arange 0 2 1 :=
  generate_indices_window_offsets pickFirst [(0 : ℚ), 0, 0, 0, 0] 2 0 1 2 0
    (1/2) 1 [[0, 1], [2, 3]] [1, 3] 0 (by decide) (by decide)

/-! ### C3: determinism -/

/-- C3 (amended).  With `subsample = False`, `generate_indices` is a pure
function of its arguments: the result is independent of the RNG-state
oracle, hence any two calls with identical arguments agree.  (With
`subsample = True` the result additionally depends on NumPy's global RNG
state — see `generate_indices_subsample_rng_dependent`.) -/
theorem generate_indices_deterministic_of_not_subsample
    (rng1 rng2 : List Nat → Nat → List Nat) (targets0 : List ℚ)
    (length tsa sr stride start0 : Int) (thr factor : ℚ) :
    generate_indices rng1 targets0 length tsa sr stride start0 false
      thr factor =
    generate_indices rng2 targets0 length tsa sr stride start0 false
      thr factor := by
  simp only [generate_indices, Bool.false_eq_true, if_false]

/-- C3 counterexample.  With `subsample = True` and identical arguments,
two states of the global RNG — both drawing a valid `replace=False` sample
of the requested size — produce different outputs: the claim that the
result depends on nothing but the arguments is false. -/
theorem generate_indices_subsample_rng_dependent :
    generate_indices pickFirst [(1 : ℚ), 0, 0, 1] 1 0 1 1 0 true
      (1/2) (1/2) ≠
    generate_indices pickLast [(1 : ℚ), 0, 0, 1] 1 0 1 1 0 true
      (1/2) (1/2) := by
  have e1 : generate_indices pickFirst [(1 : ℚ), 0, 0, 1] 1 0 1 1 0 true
      (1/2) (1/2) = .ok ([[0], [1], [3]], [0, 1, 3]) := by
    with_unfolding_all rfl
  have e2 : generate_indices pickLast [(1 : ℚ), 0, 0, 1] 1 0 1 1 0 true
      (1/2) (1/2) = .ok ([[0], [2], [3]], [0, 2, 3]) := by
    with_unfolding_all rfl
  rw [e1, e2]
  decide

/-! ### C5: stride validation -/

/-- C5 counterexample.  `generate_indices` called with the malformed stride
`-1` raises nothing: it returns normally (with empty index arrays). -/
theorem generate_indices_negative_stride_no_error :
    generate_indices pickFirst [(0 : ℚ)] 1 0 1 (-1) 0 false (1/2) 1 =
      Except.ok ([], []) := by decide

/-- C5 (amended).  Only `generate_sequences` validates the stride: every
call with `stride < 1` raises `ValueError` (before producing any batch).
`generate_indices` itself performs no stride check. -/
theorem generate_sequences_stride_valueError
    (rng : List Nat → Nat → List Nat) (perm : Nat → List Nat)
    (inputs targets : List (List ℚ))
    (length tsa sr stride start0 : Int) (shuffle : Bool) (epochs : Nat)
    (bs : Int) (subsample : Bool) (thr factor : ℚ) (h : stride < 1) :
    generate_sequences rng perm inputs targets length tsa sr stride start0
      shuffle epochs bs subsample thr factor = .error .valueError := by
  simp only [generate_sequences, if_pos h]

/-- Closed witness for the amended C5, at `stride = 0`. -/
theorem generate_sequences_stride_valueError_witness :
    generate_sequences pickFirst noPerm [[(0 : ℚ)]] [[(0 : ℚ)]] 1 0 1 0 0
      false 1 32 false (1/2) 1 = .error .valueError :=
  generate_sequences_stride_valueError pickFirst noPerm [[0]] [[0]] 1 0 1 0 0
    false 1 32 false (1/2) 1 (by decide)

/-! ### C2: the residual batch is yielded twice -/

/-- C2.  Concrete run of `generate_sequences` with 3 windows,
`batch_size = 2`, `shuffle = False`, `epochs = 1`, `subsample = False`: the
generator first yields the Keras batch count `ceil(3/2) = 2`, but then
yields **three** batches — the final residual batch `([[[30]]], [[6]])` is
produced once by the clipped slice of the main loop (whose range was already
incremented to include it) and then a second time by the dedicated
"last samples" block.  Concatenating the yields does not reproduce each
window exactly once, contradicting the announced batch count. -/
theorem generate_sequences_residual_double_yield :
    generate_sequences pickFirst noPerm [[(10 : ℚ), 20, 30]]
      [[(4 : ℚ), 5, 6]] 1 0 1 1 0 false 1 2 false (1/2) 1 =
      Except.ok (2, [([[[10], [20]]], [[4, 5]]),
                     ([[[30]]], [[6]]),
                     ([[[30]]], [[6]])]) := by with_unfolding_all rfl

/-! ### Inversion lemmas for successful `generate_indices` calls -/

lemma generate_indices_ok_false_elim
    {rng : List Nat → Nat → List Nat} {t0 : List ℚ} {len tsa sr st s0 : Int}
    {thr f : ℚ} {iis : List (List Int)} {tis : List Int}
    (h : generate_indices rng t0 len tsa sr st s0 false thr f =
      .ok (iis, tis)) :
    st ≠ 0 ∧ (sr = 0 → iis = []) ∧
    iis = (arange (s0 + len)
        (s0 + len + ((t0.length : Int) - (s0 + len) - tsa).fdiv st * st + tsa
          - tsa + 1) st).map
      (fun idx => arange (idx - len) idx sr) ∧
    tis = arange (s0 + len + tsa - 1)
      (s0 + len + ((t0.length : Int) - (s0 + len) - tsa).fdiv st * st + tsa)
      st := by
  simp only [generate_indices, Bool.false_eq_true, if_false] at h
  split_ifs at h with h1 h2 h3 <;> try exact Except.noConfusion h
  simp only [Except.ok.injEq, Prod.mk.injEq] at h
  obtain ⟨rfl, rfl⟩ := h
  refine ⟨h1, ?_, rfl, rfl⟩
  intro hsr
  rcases Classical.em
    (arange (s0 + len)
      (s0 + len + ((t0.length : Int) - (s0 + len) - tsa).fdiv st * st + tsa
        - tsa + 1) st = []) with he | he
  · rw [he]; rfl
  · exact absurd ⟨hsr, he⟩ h3

lemma subsampleSelect_ok_elim
    {rng : List Nat → Nat → List Nat} {t0 : List ℚ} {thr f : ℚ}
    {tis : List Int} {total : List Nat}
    (h : subsampleSelect rng t0 thr f tis = .ok total)
    (pos neg : List Nat)
    (hpos : pos = (List.range tis.length).filter
      fun j => decide (thr ≤ pyGet t0 (tis.getD j 0)))
    (hneg : neg = (List.range tis.length).filter
      fun j => decide (pyGet t0 (tis.getD j 0) < thr)) :
    (∀ i ∈ tis, -(t0.length : Int) ≤ i ∧ i < (t0.length : Int)) ∧
    0 ≤ pyInt ((pos.length : ℚ) * f) ∧
    total = List.insertionSort (· ≤ ·)
      (pos ++ rng neg (min (pyInt ((pos.length : ℚ) * f)).toNat neg.length)) := by
  subst hpos hneg
  simp only [subsampleSelect] at h
  split_ifs at h with h1 h2 <;> try exact Except.noConfusion h
  simp only [Except.ok.injEq] at h
  exact ⟨h1, not_lt.1 h2, h.symm⟩

lemma generate_indices_ok_true_elim
    {rng : List Nat → Nat → List Nat} {t0 : List ℚ} {len tsa sr st s0 : Int}
    {thr f : ℚ} {iis : List (List Int)} {tis : List Int}
    (h : generate_indices rng t0 len tsa sr st s0 true thr f =
      .ok (iis, tis)) :
    ∃ (iis₀ : List (List Int)) (tis₀ : List Int) (total : List Nat),
      generate_indices rng t0 len tsa sr st s0 false thr f =
        .ok (iis₀, tis₀) ∧
      subsampleSelect rng t0 thr f tis₀ = .ok total ∧
      iis = total.map (fun j => iis₀.getD j []) ∧
      tis = total.map (fun j => tis₀.getD j 0) := by
  simp only [generate_indices] at h
  split_ifs at h with h1 h2 h3 <;> try exact Except.noConfusion h
  · rcases hsel : subsampleSelect rng t0 thr f
        (arange (s0 + len + tsa - 1)
          (s0 + len + ((t0.length : Int) - (s0 + len) - tsa).fdiv st * st
            + tsa) st) with e | total
    · rw [hsel] at h
      exact Except.noConfusion h
    · rw [hsel] at h
      simp only [Except.ok.injEq, Prod.mk.injEq] at h
      obtain ⟨rfl, rfl⟩ := h
      refine ⟨_, _, total, ?_, hsel, rfl, rfl⟩
      simp only [generate_indices, Bool.false_eq_true, if_false]
      rw [if_neg h1, if_neg h2, if_neg h3]

lemma generate_indices_false_parts
    {rng : List Nat → Nat → List Nat} {t0 : List ℚ} {len tsa sr st s0 : Int}
    {thr f : ℚ} {iis : List (List Int)} {tis : List Int}
    (h : generate_indices rng t0 len tsa sr st s0 false thr f =
      .ok (iis, tis)) :
    iis.length = tis.length ∧
    ∀ j, j < tis.length →
      iis.getD j [] =
        arange (s0 + len + (j : Int) * st - len) (s0 + len + (j : Int) * st)
          sr ∧
      tis.getD j 0 = s0 + len + tsa - 1 + (j : Int) * st := by
  obtain ⟨hst, hsr0, hiis, htis⟩ := generate_indices_ok_false_elim h
  set n : Int := ((t0.length : Int) - (s0 + len) - tsa).fdiv st with hn
  have hlen : iis.length = tis.length := by
    rw [hiis, htis, List.length_map, arange_length, arange_length]
    have harg : s0 + len - (s0 + len + n * st + tsa - tsa + 1) =
        s0 + len + tsa - 1 - (s0 + len + n * st + tsa) := by ring
    rw [harg]
  refine ⟨hlen, fun j hj => ?_⟩
  have hj2 : j < tis.length := hj
  have hjt : j < (arange (s0 + len + tsa - 1) (s0 + len + n * st + tsa)
      st).length := by rw [htis] at hj2; exact hj2
  have hjs : j < (arange (s0 + len)
      (s0 + len + n * st + tsa - tsa + 1) st).length := by
    have : j < iis.length := by rw [hlen]; exact hj
    rw [hiis, List.length_map] at this
    exact this
  constructor
  · rw [hiis, getD_map_of_lt _ _ hjs 0, getD_arange hjs]
  · rw [htis, getD_arange hjt]

lemma subsampleSelect_total_facts
    {rng : List Nat → Nat → List Nat} {t0 : List ℚ} {thr f : ℚ}
    {tis : List Int} {total : List Nat} (hRng : ValidChoice rng)
    (h : subsampleSelect rng t0 thr f tis = .ok total) :
    List.Sorted (· ≤ ·) total ∧ total.Nodup ∧ ∀ x ∈ total, x < tis.length := by
  obtain ⟨-, -, htotal⟩ := subsampleSelect_ok_elim h _ _ rfl rfl
  set pos := (List.range tis.length).filter
    (fun j => decide (thr ≤ pyGet t0 (tis.getD j 0))) with hpos
  set neg := (List.range tis.length).filter
    (fun j => decide (pyGet t0 (tis.getD j 0) < thr)) with hneg
  set k := min (pyInt ((pos.length : ℚ) * f)).toNat neg.length with hk
  have hnegnd : neg.Nodup := (List.nodup_range _).filter _
  have hposnd : pos.Nodup := (List.nodup_range _).filter _
  obtain ⟨hclen, hcnd, hcsub⟩ := hRng neg k hnegnd (min_le_right _ _)
  have hperm : total.Perm (pos ++ rng neg k) := by
    rw [htotal]; exact List.perm_insertionSort _ _
  have hdisj : pos.Disjoint (rng neg k) := by
    intro a ha hac
    have h1 := (List.mem_filter.1 ha).2
    have h2 := (List.mem_filter.1 (hcsub a hac)).2
    rw [decide_eq_true_eq] at h1 h2
    exact absurd h1 (not_le.2 h2)
  refine ⟨?_, ?_, ?_⟩
  · rw [htotal]
    exact List.sorted_insertionSort _ _
  · exact hperm.nodup_iff.2 (List.nodup_append.2 ⟨hposnd, hcnd, hdisj⟩)
  · intro x hx
    rcases List.mem_append.1 (hperm.mem_iff.1 hx) with hxp | hxc
    · exact List.mem_range.1 (List.mem_filter.1 hxp).1
    · exact List.mem_range.1 (List.mem_filter.1 (hcsub x hxc)).1

lemma validChoice_pickFirst : ValidChoice pickFirst := fun _ _ hnd hk =>
  ⟨List.length_take_of_le hk, hnd.sublist (List.take_sublist _ _),
    fun _ hx => (List.take_subset _ _) hx⟩

/-! ### C8: shape and target alignment of the returned index arrays -/

/-- C8.  Every successful `generate_indices` call (with a sound
`np.random.choice` state) returns index arrays of equal first dimension, and
the `j`-th target index is aligned with the `j`-th input window: the window
is `np.arange(i, i + length, sampling_rate)` for some start `i` and its
target index is exactly `i + length + target_steps_ahead - 1`. -/
theorem generate_indices_target_alignment
    (rng : List Nat → Nat → List Nat) (targets0 : List ℚ)
    (length tsa sr stride start0 : Int) (subsample : Bool) (thr factor : ℚ)
    (iis : List (List Int)) (tis : List Int) (hRng : ValidChoice rng)
    (h : generate_indices rng targets0 length tsa sr stride start0 subsample
      thr factor = .ok (iis, tis)) :
    iis.length = tis.length ∧
    ∀ j, j < tis.length → ∃ i : Int,
      iis.getD j [] = arange i (i + length) sr ∧
      tis.getD j 0 = i + length + tsa - 1 := by
  cases subsample with
  | false =>
    obtain ⟨hlen, hj⟩ := generate_indices_false_parts h
    refine ⟨hlen, fun j hjlt => ?_⟩
    obtain ⟨h1, h2⟩ := hj j hjlt
    refine ⟨start0 + length + (j : Int) * stride - length, ?_, ?_⟩
    · rw [h1]
      congr 1
      ring
    · rw [h2]
      ring
  | true =>
    obtain ⟨iis₀, tis₀, total, h0, hsel, rfl, rfl⟩ :=
      generate_indices_ok_true_elim h
    obtain ⟨hlen0, hj0⟩ := generate_indices_false_parts h0
    obtain ⟨-, -, hbound⟩ := subsampleSelect_total_facts hRng hsel
    refine ⟨by rw [List.length_map, List.length_map], fun j hjlt => ?_⟩
    rw [List.length_map] at hjlt
    have hx : total.getD j 0 ∈ total := by
      rw [List.getD_eq_getElem _ _ hjlt]
      exact List.getElem_mem _
    have hxlt : total.getD j 0 < tis₀.length := hbound _ hx
    obtain ⟨h1, h2⟩ := hj0 (total.getD j 0) hxlt
    refine ⟨start0 + length + ((total.getD j 0 : Nat) : Int) * stride - length,
      ?_, ?_⟩
    · rw [getD_map_of_lt _ _ hjlt 0, h1]
      congr 1
      ring
    · rw [getD_map_of_lt _ _ hjlt 0, h2]
      ring

/-- Closed witness for C8 at a subsampled call: `length = 1`,
`target_steps_ahead = 0`, windows `[[0], [1], [3]]`, targets `[0, 1, 3]`. -/
theorem generate_indices_target_alignment_witness :
    ([[0], [1], [3]] : List (List Int)).length = ([0, 1, 3] : List Int).length ∧
    ∀ j, j < ([0, 1, 3] : List Int).length → ∃ i : Int,
      ([[0], [1], [3]] : List (List Int)).getD j [] = arange i (i + 1) 1 ∧
      ([0, 1, 3] : List Int).getD j 0 = i + 1 + 0 - 1 := by
  apply generate_indices_target_alignment pickFirst [(1 : ℚ), 0, 0, 1]
    1 0 1 1 0 true (1/2) (1/2)
  · exact validChoice_pickFirst
  · with_unfolding_all rfl

/-! ### C4: subsampling keeps all positives and a computed number of
negatives -/

/-- C4 counterexample.  At `subsampling_factor = -1/2` with one positive and
one negative window, the code keeps `min(int(1 * -0.5), 1) = min(0, 1) = 0`
negative windows (Python `int()` truncates toward zero), while the claimed
formula `min(⌊1 * -0.5⌋, 1) = -1` is not the number of kept negative
windows (`0`). -/
theorem generate_indices_subsample_floor_counterexample :
    generate_indices pickFirst [(1 : ℚ), 0] 1 0 1 1 0 true (1/2) (-(1/2)) =
      .ok ([[0]], [0]) ∧
    min ⌊(1 : ℚ) * (-(1/2))⌋ 1 = -1 ∧
    ([0] : List Int).countP
      (fun i => decide (pyGet [(1 : ℚ), 0] i < 1/2)) = 0 ∧
    (-1 : Int) ≠ (0 : Int) := by
  refine ⟨by with_unfolding_all rfl, by with_unfolding_all decide,
    by with_unfolding_all rfl, by decide⟩

/-- C4 (amended).  With `subsample = True` (and a sound `np.random.choice`
state), `generate_indices` keeps every window whose target value is
`≥ subsampling_cutoff_threshold` — exactly as many as before subsampling —
and keeps exactly `min(int(n_positive * subsampling_factor), n_negative)`
windows whose target is below the threshold, where `int()` is Python's
truncation toward zero (equal to `⌊·⌋` whenever `subsampling_factor ≥ 0`)
and `n_positive`, `n_negative` count the windows before subsampling. -/
theorem generate_indices_subsample_counts
    (rng : List Nat → Nat → List Nat) (targets0 : List ℚ)
    (length tsa sr stride start0 : Int) (thr factor : ℚ)
    (iis : List (List Int)) (tis : List Int)
    (iis₀ : List (List Int)) (tis₀ : List Int) (hRng : ValidChoice rng)
    (h : generate_indices rng targets0 length tsa sr stride start0 true
      thr factor = .ok (iis, tis))
    (h0 : generate_indices rng targets0 length tsa sr stride start0 false
      thr factor = .ok (iis₀, tis₀)) :
    (∀ i ∈ tis₀, thr ≤ pyGet targets0 i → i ∈ tis) ∧
    tis.countP (fun i => decide (thr ≤ pyGet targets0 i)) =
      tis₀.countP (fun i => decide (thr ≤ pyGet targets0 i)) ∧
    tis.countP (fun i => decide (pyGet targets0 i < thr)) =
      min (pyInt ((tis₀.countP
          (fun i => decide (thr ≤ pyGet targets0 i)) : ℚ) * factor)).toNat
        (tis₀.countP (fun i => decide (pyGet targets0 i < thr))) := by
  obtain ⟨iis₁, tis₁, total, h0', hsel, rfl, rfl⟩ :=
    generate_indices_ok_true_elim h
  rw [h0'] at h0
  simp only [Except.ok.injEq, Prod.mk.injEq] at h0
  obtain ⟨rfl, rfl⟩ := h0
  obtain ⟨-, -, htotal⟩ := subsampleSelect_ok_elim hsel _ _ rfl rfl
  set m := tis₁.length with hm
  set P : Int → Bool := fun i => decide (thr ≤ pyGet targets0 i) with hP
  set N : Int → Bool := fun i => decide (pyGet targets0 i < thr) with hN
  set pos := (List.range m).filter
    (fun j => decide (thr ≤ pyGet targets0 (tis₁.getD j 0))) with hpos
  set neg := (List.range m).filter
    (fun j => decide (pyGet targets0 (tis₁.getD j 0) < thr)) with hneg
  set k := min (pyInt ((pos.length : ℚ) * factor)).toNat neg.length with hk
  have hperm : total.Perm (pos ++ rng neg k) := by
    rw [htotal]; exact List.perm_insertionSort _ _
  have hnegnd : neg.Nodup := (List.nodup_range _).filter _
  obtain ⟨hclen, hcnd, hcsub⟩ := hRng neg k hnegnd (min_le_right _ _)
  have hposlen : pos.length = tis₁.countP P := by
    rw [hpos, hP, countP_eq_length_filter_range tis₁ _ 0]
  have hneglen : neg.length = tis₁.countP N := by
    rw [hneg, hN, countP_eq_length_filter_range tis₁ _ 0]
  refine ⟨?_, ?_, ?_⟩
  · intro i hi hthr
    obtain ⟨j, hj, hji⟩ := List.mem_iff_getElem.1 hi
    have hjpos : j ∈ pos := by
      rw [hpos]
      refine List.mem_filter.2 ⟨List.mem_range.2 hj, ?_⟩
      rw [decide_eq_true_eq, List.getD_eq_getElem _ _ hj, hji]
      exact hthr
    have hjtot : j ∈ total := hperm.mem_iff.2 (List.mem_append.2 (.inl hjpos))
    refine List.mem_map.2 ⟨j, hjtot, ?_⟩
    rw [List.getD_eq_getElem _ _ hj, hji]
  · rw [List.countP_map, hperm.countP_eq, List.countP_append]
    simp only [Function.comp_def]
    have hc0 : (rng neg k).countP (fun j => P (tis₁.getD j 0)) = 0 := by
      rw [List.countP_eq_zero]
      intro a ha
      have h2 := (List.mem_filter.1 (hcsub a ha)).2
      rw [decide_eq_true_eq] at h2
      simp only [hP, decide_eq_true_eq]
      exact not_le.2 h2
    have hcp : pos.countP (fun j => P (tis₁.getD j 0)) = pos.length := by
      rw [List.countP_eq_length]
      intro a ha
      have h2 := (List.mem_filter.1 ha).2
      simpa [hP] using h2
    rw [hc0, hcp, hposlen]
    omega
  · rw [List.countP_map, hperm.countP_eq, List.countP_append]
    simp only [Function.comp_def]
    have hc0 : pos.countP (fun j => N (tis₁.getD j 0)) = 0 := by
      rw [List.countP_eq_zero]
      intro a ha
      have h2 := (List.mem_filter.1 ha).2
      rw [decide_eq_true_eq] at h2
      simp only [hN, decide_eq_true_eq]
      exact not_lt.2 h2
    have hcn : (rng neg k).countP (fun j => N (tis₁.getD j 0)) =
        (rng neg k).length := by
      rw [List.countP_eq_length]
      intro a ha
      have h2 := (List.mem_filter.1 (hcsub a ha)).2
      simpa [hN] using h2
    rw [hc0, hcn, hclen, hk, hposlen, hneglen]
    omega

/-- Closed witness for the amended C4: targets `[1, 0, 0, 1]`,
threshold `1/2`, factor `1/2` — both positive windows are kept and
`min(int(2 * 0.5), 2) = 1` negative window is kept. -/
theorem generate_indices_subsample_counts_witness :
    (∀ i ∈ ([0, 1, 2, 3] : List Int),
      (1/2 : ℚ) ≤ pyGet [(1 : ℚ), 0, 0, 1] i → i ∈ ([0, 1, 3] : List Int)) ∧
    ([0, 1, 3] : List Int).countP
        (fun i => decide ((1/2 : ℚ) ≤ pyGet [(1 : ℚ), 0, 0, 1] i)) =
      ([0, 1, 2, 3] : List Int).countP
        (fun i => decide ((1/2 : ℚ) ≤ pyGet [(1 : ℚ), 0, 0, 1] i)) ∧
    ([0, 1, 3] : List Int).countP
        (fun i => decide (pyGet [(1 : ℚ), 0, 0, 1] i < (1/2 : ℚ))) =
      min (pyInt ((([0, 1, 2, 3] : List Int).countP
            (fun i => decide ((1/2 : ℚ) ≤ pyGet [(1 : ℚ), 0, 0, 1] i)) : ℚ)
          * (1/2))).toNat
        (([0, 1, 2, 3] : List Int).countP
          (fun i => decide (pyGet [(1 : ℚ), 0, 0, 1] i < (1/2 : ℚ)))) :=
  generate_indices_subsample_counts pickFirst [(1 : ℚ), 0, 0, 1] 1 0 1 1 0
    (1/2) (1/2) [[0], [1], [3]] [0, 1, 3] [[0], [1], [2], [3]] [0, 1, 2, 3]
    validChoice_pickFirst (by with_unfolding_all rfl)
    (by with_unfolding_all rfl)

/-! ### C9: index-range safety and monotonicity of the target indices -/

lemma mem_arange_bounds {a b st : Int} (hst : 0 < st) {x : Int}
    (hx : x ∈ arange a b st) : a ≤ x ∧ x < b := by
  obtain ⟨j, hj, rfl⟩ := mem_arange hx
  constructor
  · nlinarith [Int.ofNat_nonneg j]
  · exact (lt_arange_length_iff hst j).1 hj

lemma generate_indices_bounds_false
    {rng : List Nat → Nat → List Nat} {t0 : List ℚ} {len tsa sr st s0 : Int}
    {thr f : ℚ} {iis : List (List Int)} {tis : List Int}
    (hst : 1 ≤ st) (hs0 : 0 ≤ s0) (htsa : 0 ≤ tsa) (hlen : 1 ≤ len)
    (h : generate_indices rng t0 len tsa sr st s0 false thr f =
      .ok (iis, tis)) :
    (∀ w ∈ iis, ∀ i ∈ w, 0 ≤ i ∧ i < (t0.length : Int)) ∧
    (∀ i ∈ tis, 0 ≤ i ∧ i < (t0.length : Int)) ∧
    List.Pairwise (· < ·) tis := by
  obtain ⟨hst0, hsr0, hiis, htis⟩ := generate_indices_ok_false_elim h
  set L : Int := (t0.length : Int) with hL
  set n : Int := (L - (s0 + len) - tsa).fdiv st with hn
  have hnb : n * st ≤ L - (s0 + len) - tsa := by
    rw [hn, Int.fdiv_eq_ediv _ (by omega)]
    exact Int.ediv_mul_le _ (by omega)
  have hstpos : (0 : Int) < st := by omega
  refine ⟨?_, ?_, ?_⟩
  · intro w hw i hi
    rw [hiis] at hw
    obtain ⟨idx, hidx, rfl⟩ := List.mem_map.1 hw
    obtain ⟨hidx1, hidx2⟩ := mem_arange_bounds hstpos hidx
    rcases lt_trichotomy sr 0 with hsr | hsr | hsr
    · rw [arange_empty_of_neg hsr (by omega)] at hi
      exact absurd hi (List.not_mem_nil i)
    · exfalso
      have : iis = [] := hsr0 hsr
      rw [hiis] at this
      rw [this] at hw
      exact absurd hw (List.not_mem_nil _)
    · obtain ⟨hi1, hi2⟩ := mem_arange_bounds hsr hi
      omega
  · intro i hi
    rw [htis] at hi
    obtain ⟨hi1, hi2⟩ := mem_arange_bounds hstpos hi
    omega
  · rw [htis]
    exact arange_sorted_lt hstpos

/-- C9 (amended).  For every call with `stride ≥ 1`, `start_index ≥ 0`,
`target_steps_ahead ≥ 0` and window `length ≥ 1` (and a sound
`np.random.choice` state) that returns, every index of both returned arrays
lies in `[0, len(targets[0]))` and the target-index array is strictly
increasing — also when `subsample = True`. -/
theorem generate_indices_index_bounds
    (rng : List Nat → Nat → List Nat) (targets0 : List ℚ)
    (length tsa sr stride start0 : Int) (subsample : Bool) (thr factor : ℚ)
    (iis : List (List Int)) (tis : List Int) (hRng : ValidChoice rng)
    (hst : 1 ≤ stride) (hs0 : 0 ≤ start0) (htsa : 0 ≤ tsa)
    (hlen : 1 ≤ length)
    (h : generate_indices rng targets0 length tsa sr stride start0 subsample
      thr factor = .ok (iis, tis)) :
    (∀ w ∈ iis, ∀ i ∈ w, 0 ≤ i ∧ i < (targets0.length : Int)) ∧
    (∀ i ∈ tis, 0 ≤ i ∧ i < (targets0.length : Int)) ∧
    List.Pairwise (· < ·) tis := by
  cases subsample with
  | false => exact generate_indices_bounds_false hst hs0 htsa hlen h
  | true =>
    obtain ⟨iis₀, tis₀, total, h0, hsel, rfl, rfl⟩ :=
      generate_indices_ok_true_elim h
    obtain ⟨hw0, ht0, -⟩ := generate_indices_bounds_false hst hs0 htsa hlen h0
    obtain ⟨hlen0, hj0⟩ := generate_indices_false_parts h0
    obtain ⟨hsorted, hnodup, hbound⟩ := subsampleSelect_total_facts hRng hsel
    refine ⟨?_, ?_, ?_⟩
    · intro w hw i hi
      obtain ⟨x, hx, rfl⟩ := List.mem_map.1 hw
      have hxlt : x < iis₀.length := by rw [hlen0]; exact hbound x hx
      have hmem : iis₀.getD x [] ∈ iis₀ := by
        rw [List.getD_eq_getElem _ _ hxlt]
        exact List.getElem_mem _
      exact hw0 _ hmem i hi
    · intro i hi
      obtain ⟨x, hx, rfl⟩ := List.mem_map.1 hi
      have hxlt : x < tis₀.length := hbound x hx
      have hmem : tis₀.getD x 0 ∈ tis₀ := by
        rw [List.getD_eq_getElem _ _ hxlt]
        exact List.getElem_mem _
      exact ht0 _ hmem
    · rw [List.pairwise_map]
      have hlt : List.Pairwise (· < ·) total :=
        (hsorted.and hnodup).imp fun hab => lt_of_le_of_ne hab.1 hab.2
      refine hlt.imp_of_mem ?_
      intro a b ha hb hab
      have h1 := (hj0 a (hbound a ha)).2
      have h2 := (hj0 b (hbound b hb)).2
      rw [h1, h2]
      have : (a : Int) < (b : Int) := by exact_mod_cast hab
      nlinarith

/-- C9 counterexample.  With `length = 0` (and all the claim's stated
hypotheses satisfied: `stride = 1 ≥ 1`, `start_index = 0`,
`target_steps_ahead = 0`), the call returns without raising, yet the
target-index array contains `-1`, which is outside `[0, len(targets[0]))`. -/
theorem generate_indices_zero_length_counterexample :
    generate_indices pickFirst [(0 : ℚ)] 0 0 1 1 0 false (1/2) 1 =
      .ok ([[], []], [-1, 0]) ∧
    ¬ ∀ i ∈ ([-1, 0] : List Int), 0 ≤ i ∧ i < (1 : Int) := by
  exact ⟨by decide, by decide⟩

/-- Closed witness for the amended C9, at the subsampled call with targets
`[1, 0, 0, 1]`, `length = 1`, `stride = 1`. -/
theorem generate_indices_index_bounds_witness :
    (∀ w ∈ ([[0], [1], [3]] : List (List Int)), ∀ i ∈ w,
      0 ≤ i ∧ i < (([(1 : ℚ), 0, 0, 1] : List ℚ).length : Int)) ∧
    (∀ i ∈ ([0, 1, 3] : List Int),
      0 ≤ i ∧ i < (([(1 : ℚ), 0, 0, 1] : List ℚ).length : Int)) ∧
    List.Pairwise (· < ·) ([0, 1, 3] : List Int) :=
  generate_indices_index_bounds pickFirst [(1 : ℚ), 0, 0, 1] 1 0 1 1 0 true
    (1/2) (1/2) [[0], [1], [3]] [0, 1, 3] validChoice_pickFirst
    (by decide) (by decide) (by decide) (by decide)
    (by with_unfolding_all rfl)

/-! ### C7: seizures recorded by the `explore_data.py` scan are maximal
`True` runs -/

lemma getD_default_irrel {α : Type} (l : List α) {n : Nat} (h : n < l.length)
    (d d' : α) : l.getD n d = l.getD n d' := by
  rw [List.getD_eq_getElem _ _ h, List.getD_eq_getElem _ _ h]

lemma seizureScanAux_invariant (szr : List Bool) :
    ∀ (rest : List Bool) (i : Nat) (prev : Bool) (opn : Option Nat)
      (acc recs : List (Nat × Nat × Nat)),
      1 ≤ i →
      szr.drop i = rest →
      szr.getD (i - 1) false = prev →
      (∀ r ∈ acc, ∃ a b, IsSeizureRun szr a b ∧ 1 ≤ a ∧
        b + 1 < szr.length ∧ r = (a - 1, b, b + 1 - a)) →
      (∀ s, opn = some s → s + 1 < i ∧ szr.getD s false = false ∧
        prev = true ∧ ∀ j, s < j → j < i → szr.getD j false = true) →
      seizureScanAux i prev rest opn acc = some recs →
      ∀ r ∈ recs, ∃ a b, IsSeizureRun szr a b ∧ 1 ≤ a ∧
        b + 1 < szr.length ∧ r = (a - 1, b, b + 1 - a) := by
  intro rest
  induction rest with
  | nil =>
    intro i prev opn acc recs hi hdrop hprev hacc hopn h
    simp only [seizureScanAux, Option.some.injEq] at h
    subst h
    exact hacc
  | cons cur rest ih =>
    intro i prev opn acc recs hi hdrop hprev hacc hopn h
    have hilen : i < szr.length := by
      have hlen := congrArg List.length hdrop
      rw [List.length_drop] at hlen
      simp only [List.length_cons] at hlen
      omega
    have hcur : szr.getD i false = cur := by
      have hd := List.getElem?_drop szr i 0
      rw [hdrop] at hd
      simp only [Nat.add_zero] at hd
      rw [List.getD_eq_getElem?_getD, ← hd, List.getElem?_cons_zero,
        Option.getD_some]
    have hdrop' : szr.drop (i + 1) = rest := by
      rw [← List.drop_drop, hdrop]
      rfl
    have hprev' : szr.getD (i + 1 - 1) false = cur := by
      simpa using hcur
    cases cur <;> cases prev
    · -- cur = false, prev = false: no transition
      simp only [seizureScanAux, Bool.and_true, Bool.and_false, Bool.true_and,
        Bool.false_and, Bool.not_true, Bool.not_false, Bool.and_self,
        Bool.false_eq_true, if_true, if_false] at h
      refine ih (i + 1) false opn acc recs (by omega) hdrop' hprev' hacc
        ?_ h
      intro s hs
      exact absurd (hopn s hs).2.2.1 (by simp)
    · -- cur = false, prev = true: a run ends here
      simp only [seizureScanAux, Bool.and_true, Bool.and_false, Bool.true_and,
        Bool.false_and, Bool.not_true, Bool.not_false, Bool.and_self,
        Bool.false_eq_true, if_true, if_false] at h
      cases hop : opn with
      | none =>
        rw [hop] at h
        exact Option.noConfusion h
      | some s =>
        rw [hop] at h
        obtain ⟨hsi, hszs, -, hall⟩ := hopn s hop
        refine ih (i + 1) false none
          (acc ++ [(s, i - 1, i - 1 - s)]) recs (by omega) hdrop' hprev'
          ?_ (by intro t ht; exact Option.noConfusion ht) h
        intro r hr
        rcases List.mem_append.1 hr with hro | hrn
        · exact hacc r hro
        · have hr' : r = (s, i - 1, i - 1 - s) := by simpa using hrn
          refine ⟨s + 1, i - 1, ⟨by omega, by omega, ?_, ?_, ?_⟩,
            by omega, by omega, ?_⟩
          · intro k _ hk1 hk2
            exact hall k (by omega) (by omega)
          · right
            rw [Nat.add_sub_cancel,
              getD_default_irrel szr (show s < szr.length by omega) true false]
            exact hszs
          · right
            rw [show i - 1 + 1 = i by omega,
              getD_default_irrel szr hilen true false]
            exact hcur
          · rw [hr', show i - 1 + 1 - (s + 1) = i - 1 - s by omega,
              Nat.add_sub_cancel]
    · -- cur = true, prev = false: a run starts here
      simp only [seizureScanAux, Bool.and_true, Bool.and_false, Bool.true_and,
        Bool.false_and, Bool.not_true, Bool.not_false, Bool.and_self,
        Bool.false_eq_true, if_true, if_false] at h
      refine ih (i + 1) true (some (i - 1)) acc recs (by omega) hdrop'
        hprev' hacc ?_ h
      intro s hs
      have hsv : s = i - 1 := (Option.some.inj hs).symm
      subst hsv
      refine ⟨by omega, hprev, rfl, ?_⟩
      intro j hj1 hj2
      have hji : j = i := by omega
      rw [hji]
      exact hcur
    · -- cur = true, prev = true: run continues
      simp only [seizureScanAux, Bool.and_true, Bool.and_false, Bool.true_and,
        Bool.false_and, Bool.not_true, Bool.not_false, Bool.and_self,
        Bool.false_eq_true, if_true, if_false] at h
      refine ih (i + 1) true opn acc recs (by omega) hdrop' hprev' hacc
        ?_ h
      intro s hs
      obtain ⟨hsi, hszs, -, hall⟩ := hopn s hs
      refine ⟨by omega, hszs, rfl, ?_⟩
      intro j hj1 hj2
      rcases Nat.lt_or_ge j i with hji | hji
      · exact hall j hj1 hji
      · have hji2 : j = i := by omega
        rw [hji2]
        exact hcur

/-- C7.  Every seizure fully recorded by the scan in `explore_data.py`
(a completed `(start_idx, end_idx, duration)` entry of the `seizures`
dictionary) corresponds to a maximal contiguous run `a..b` of `True` in
`szr_bool`, with `start_idx = a - 1` the index immediately before the run's
first `True` timestamp, `end_idx = b` the run's last `True` index, and
`duration = b + 1 - a` the number of timestamps labeled `True` in the
run. -/
theorem seizureScan_runs (szr : List Bool) (recs : List (Nat × Nat × Nat))
    (h : seizureScan szr = some recs) :
    ∀ r ∈ recs, ∃ a b, IsSeizureRun szr a b ∧ 1 ≤ a ∧
      b + 1 < szr.length ∧ r = (a - 1, b, b + 1 - a) := by
  cases szr with
  | nil =>
    simp only [seizureScan, Option.some.injEq] at h
    subst h
    intro r hr
    exact absurd hr (List.not_mem_nil r)
  | cons b rest =>
    exact seizureScanAux_invariant (b :: rest) rest 1 b none [] recs
      (by omega) rfl rfl (by intro r hr; exact absurd hr (List.not_mem_nil r))
      (by intro s hs; exact Option.noConfusion hs) h

/-- Closed witness for C7: `szr_bool = [F, T, T, F]` records the single
seizure `(start_idx, end_idx, duration) = (0, 2, 2)`. -/
theorem seizureScan_runs_witness :
    ∃ a b, IsSeizureRun [false, true, true, false] a b ∧ 1 ≤ a ∧
      b + 1 < ([false, true, true, false] : List Bool).length ∧
      ((0, 2, 2) : Nat × Nat × Nat) = (a - 1, b, b + 1 - a) :=
  seizureScan_runs [false, true, true, false] [(0, 2, 2)] (by decide)
    (0, 2, 2) (by decide)
